import Mathlib

/-!
Verification of the `balancer` crate's work-distribution core
(`src/lib.rs`): the `div_ceil` helper, the Partitioner range formula,
`Balancer::get_subset`, `Balancer::work`, `Balancer::work_subset`,
`Balancer::distribute` and `Balancer::collect`.

Modelling conventions:
- Rust `usize` values are modelled as `Nat`. The one place where `usize`
  arithmetic can fail, `div_ceil`'s `(a + b - 1) / b`, is modelled with an
  `Option`: `none` stands for the runtime failure (subtraction underflow
  when `a + b == 0`, division by zero when `b == 0`; both abort).
- Rust slices/`Vec`s are Lean `List`s. Slice indexing `&items[l..r]`,
  which aborts when `l > r` or `r > items.len()`, is `sliceRange` with
  `none` for the abort.
- rayon's `par_iter().map(f).collect()` is positional (the output at
  position `i` is `f` of the input at position `i`, independent of worker
  scheduling), so it is embedded as `parMap = List.map`.
- Blocking MPI calls are made explicit: `distribute` returns a
  `DistOutcome` describing what the call does on the wire (the chunks sent
  and to whom, or the single blocking receive of the non-root branch);
  `collect` returns a `CollectResult` recording the result, the state of
  the work slot afterwards, and the number of point-to-point receives and
  sends plus whether the group barrier is reached. A run that can never
  complete (a receive with no matching send) is represented by `none` at
  the level of whole-protocol runs (`roundTrip`).
-/

/-- Model of the crate's free function `div_ceil(a, b) = (a + b - 1) / b`
on `usize`. `none` models the abort: when `b == 0` the expression either
underflows (`a == 0`) or divides by zero, exactly as the source comment
notes ("If b is zero this will panic"). -/
def div_ceil (a b : Nat) : Option Nat :=
  if b = 0 then none else some ((a + b - 1) / b)

/-- Model of rayon's `par_iter().map(f).collect::<Vec<_>>()`: a fork-join
parallel map whose result is positional — position `i` of the output holds
`f` of input position `i` regardless of worker scheduling. -/
def parMap {I O : Type} (f : I → O) (items : List I) : List O :=
  items.map f

/-- Model of Rust slice indexing `&items[l..r]`: `none` models the
out-of-bounds abort when `l > r` or `r > items.len()`. -/
def sliceRange {I : Type} (items : List I) (l r : Nat) : Option (List I) :=
  if l ≤ r ∧ r ≤ items.length then some ((items.drop l).take (r - l)) else none

/-- The Partitioner range formula shared by `get_subset` (lib.rs 63-67)
and `work_subset` (lib.rs 79-83): `chunk_size = div_ceil(n, size)`,
`l = rank * chunk_size`, `r = min((rank + 1) * chunk_size, n)`.
`none` propagates `div_ceil`'s abort at `size == 0`. -/
def partitionRange (n size rank : Nat) : Option (Nat × Nat) :=
  (div_ceil n size).map fun chunk_size =>
    (rank * chunk_size, min ((rank + 1) * chunk_size) n)

/-- One iteration-by-iteration model of the send loop in
`Balancer::distribute` (lib.rs 118-122):
`while !items.is_empty() { let theirs = items.drain(..chunk_size.min(items.len())).collect(); send(rank, theirs); rank += 1 }`.
The result is the ordered list of `(destination rank, chunk)` sends.
`fuel` bounds the number of iterations; since every iteration with
`cs ≥ 1` removes at least one item, `fuel = items.length` is exact, and
the only way to run out of fuel is `cs = 0` with items left — which in the
source is an infinite loop, modelled as `none`. -/
def sendLoopAux {I : Type} (cs : Nat) : Nat → Nat → List I → Option (List (Nat × List I))
  | _, _, [] => some []
  | 0, _, _ :: _ => none
  | fuel + 1, start, a :: t =>
    if cs = 0 then none
    else
      let l := a :: t
      let k := min cs l.length
      (sendLoopAux cs fuel (start + 1) (l.drop k)).map fun rest =>
        (start, l.take k) :: rest

/-- The send loop of `distribute`, started with destination rank `start`
(the source starts at 1) on the items remaining after root drained its own
chunk. -/
def sendLoop {I : Type} (cs start : Nat) (l : List I) : Option (List (Nat × List I)) :=
  sendLoopAux cs l.length start l

/-- What a call to `Balancer::distribute` does, as observable behaviour:
`sends ours msgs` is the root branch (`rank == 0 && size > 1`) completing
its drain-and-send phase, keeping `ours` and performing the point-to-point
sends `msgs` in order before the barrier; `abortUnwrap` is the `unwrap`
abort on `items == None` (or an out-of-range first `drain`); `diverge` is
the send loop never terminating; `recv` is the else branch, which performs
exactly one blocking receive from rank 0 followed by the barrier,
returning `Some` of whatever arrives. -/
inductive DistOutcome (I : Type) where
  | sends (ours : List I) (msgs : List (Nat × List I))
  | abortUnwrap
  | diverge
  | recv

/-- Result of a call to `Balancer::collect`: the value returned, the work
slot after the call (the source's `self.work.replace(None)` always leaves
`None`), and the network activity performed: number of point-to-point
receives, number of point-to-point sends, and whether the group barrier is
reached. -/
structure CollectResult (O : Type) where
  result : Option (List O)
  slotAfter : Option (List O)
  receives : Nat
  sends : Nat
  barrier : Bool
  deriving Repr, DecidableEq

namespace Balancer

/-- Model of `Balancer::get_subset` (lib.rs 58-69): computes the
Partitioner bounds and returns `&items[l..r]`; `none` models the aborts
(division by zero at `size == 0`, or slice out of range when `l > r`). -/
def get_subset {I : Type} (rank size : Nat) (items : List I) : Option (List I) :=
  match div_ceil items.length size with
  | none => none
  | some chunk_size =>
    sliceRange items (rank * chunk_size) (min ((rank + 1) * chunk_size) items.length)

/-- Model of `Balancer::work` (lib.rs 94-105): maps `f` over all of
`items` with the positional parallel map and stores the result as the new
pending `LocalWork` slot value (always `some`). -/
def work {I O : Type} (f : I → O) (items : List I) : Option (List O) :=
  some (parMap f items)

/-- Model of `Balancer::work_subset` (lib.rs 72-91): recomputes the
Partitioner bounds exactly as `get_subset` does, slices `&items[l..r]`,
maps `f` over the slice and stores the result as the new pending
`LocalWork`. The outer `Option` is `none` on abort (division by zero, or
slice out of range); on success the inner value is the new slot content
(always `some` of the mapped chunk). -/
def work_subset {I O : Type} (rank size : Nat) (f : I → O) (items : List I) :
    Option (Option (List O)) :=
  match div_ceil items.length size with
  | none => none
  | some chunk_size =>
    match sliceRange items (rank * chunk_size) (min ((rank + 1) * chunk_size) items.length) with
    | none => none
    | some our_items => some (some (parMap f our_items))

/-- Modelled from the spec: `work_local` is called by
`examples/simple.rs` but its definition is not present in `src/lib.rs`
(the only file of the crate's library in the snapshot). Per the spec
(§4.4), it has "same partitioning behavior as `work_subset`": it computes
this rank's chunk via the Partitioner formula and stores the mapped chunk
as the pending `LocalWork`. -/
def work_local {I O : Type} (rank size : Nat) (f : I → O) (items : List I) :
    Option (Option (List O)) :=
  match div_ceil items.length size with
  | none => none
  | some chunk_size =>
    match sliceRange items (rank * chunk_size) (min ((rank + 1) * chunk_size) items.length) with
    | none => none
    | some our_items => some (some (parMap f our_items))

/-- Model of `Balancer::distribute` (lib.rs 108-130). The root branch
(`rank == 0 && size > 1`) unwraps `items`, computes `chunk_size`, drains
its own chunk (`items.drain(..chunk_size)` — an abort if `chunk_size`
exceeds the length), then runs the send loop starting at destination
rank 1. Every other case — non-root rank, or `size <= 1` (including root
itself when `size == 1`) — takes the else branch: one blocking receive
from rank 0. -/
def distribute {I : Type} (rank size : Nat) (items : Option (List I)) : DistOutcome I :=
  if rank = 0 ∧ 1 < size then
    match items with
    | none => DistOutcome.abortUnwrap
    | some data =>
      match div_ceil data.length size with
      | none => DistOutcome.abortUnwrap
      | some chunk_size =>
        if chunk_size ≤ data.length then
          match sendLoop chunk_size 1 (data.drop chunk_size) with
          | some msgs => DistOutcome.sends (data.take chunk_size) msgs
          | none => DistOutcome.diverge
        else DistOutcome.abortUnwrap
  else DistOutcome.recv

/-- Model of `Balancer::collect` (lib.rs 132-154). `slot` is the pending
`LocalWork`; `incoming` lists, in increasing rank order, the output each
of the ranks `1, ..., size - 1` sent to root (the transport is reliable
and ordered, so root's loop `for rank in 1..size` receives exactly these
in order). With no pending work the function returns immediately: no
receive, no send, no barrier. -/
def collect {O : Type} (rank size : Nat) (slot : Option (List O))
    (incoming : List (List O)) : CollectResult O :=
  match slot with
  | none =>
    { result := none, slotAfter := none, receives := 0, sends := 0, barrier := false }
  | some out =>
    if rank = 0 then
      { result := some (out ++ incoming.flatten), slotAfter := none,
        receives := size - 1, sends := 0, barrier := true }
    else
      { result := none, slotAfter := none, receives := 0, sends := 1, barrier := true }

end Balancer

/-- What a non-root rank's single blocking receive in `distribute`
delivers, given the list of point-to-point sends root performed: the
payload of the (unique) send addressed to this rank, or `none` when no
send is addressed to it — in which case the receive blocks forever. -/
def followerRecv {I : Type} (msgs : List (Nat × List I)) (k : Nat) : Option (List I) :=
  (msgs.find? fun m => m.1 == k).map Prod.snd

/-- A whole distribute → identity work → collect cycle across all ranks
of a group of the given size, driven by the models above: root runs
`distribute 0 size (some data)`; each follower rank `1 ≤ k < size` runs
`distribute k size none`, whose one blocking receive yields the chunk root
addressed to `k` (if none is addressed to `k` the receive blocks forever
and no rank gets past the barrier: the run is `none`); every rank then
runs `work` with the identity function on its chunk, and root's `collect`
receives every follower's output in rank order. The value is root's
`collect` result, or `none` when the protocol cannot complete. -/
def roundTrip {I : Type} (size : Nat) (data : List I) : Option (List I) :=
  match Balancer.distribute 0 size (some data) with
  | DistOutcome.sends ours msgs =>
    let fchunks := (List.range (size - 1)).map fun j => followerRecv msgs (j + 1)
    if fchunks.all Option.isSome then
      let outs := fchunks.map fun c => (Balancer.work (fun x => x) (c.getD [])).getD []
      (Balancer.collect 0 size (Balancer.work (fun x => x) ours) outs).result
    else none
  | _ => none

/-! ## Basic facts about `div_ceil` -/

theorem div_ceil_eq {a b : Nat} (hb : 1 ≤ b) :
    div_ceil a b = some ((a + b - 1) / b) := by
  unfold div_ceil
  rw [if_neg (by omega)]

theorem div_ceil_char {a b q : Nat} (h : div_ceil a b = some q) :
    a ≤ q * b ∧ q * b < a + b := by
  rcases Nat.eq_zero_or_pos b with hb | hb
  · simp [div_ceil, hb] at h
  · rw [div_ceil, if_neg (by omega)] at h
    have hq := Option.some.inj h
    subst hq
    have h1 := Nat.div_add_mod (a + b - 1) b
    have h2 := Nat.mod_lt (a + b - 1) hb
    have h3 : (a + b - 1) / b * b = b * ((a + b - 1) / b) := Nat.mul_comm _ _
    omega

theorem div_ceil_pos {a b q : Nat} (h : div_ceil a b = some q) (ha : 1 ≤ a) :
    1 ≤ q := by
  have hc := div_ceil_char h
  rcases Nat.eq_zero_or_pos q with hq | hq
  · subst hq; simp at hc; omega
  · exact hq

/-- For a group of at least two ranks, root's own chunk size never exceeds
the number of items (so the first `drain(..chunk_size)` cannot go out of
range). -/
theorem div_ceil_le_self {n size q : Nat} (hsize : 2 ≤ size)
    (h : div_ceil n size = some q) : q ≤ n := by
  rw [div_ceil_eq (by omega)] at h
  have hq := Option.some.inj h
  subst hq
  rcases Nat.eq_zero_or_pos n with hn | hn
  · subst hn
    have : size - 1 < size := by omega
    simp [Nat.div_eq_of_lt this]
  · have hlt : (n + size - 1) / size < n + 1 := by
      rw [Nat.div_lt_iff_lt_mul (by omega)]
      have e : (n + 1) * size = n * size + size := by ring
      have h2 : n * 1 ≤ n * size := Nat.mul_le_mul_left n (by omega)
      omega
    omega

/-! ## C8 -/

/-- C8: computing `chunk_size` with `size == 0` always fails (the
divide-by-zero branch of `div_ceil` is reached), and for `size ≥ 1` it
never fails and returns exactly the ceiling of `total / size`: the unique
`q` with `total ≤ q * size < total + size`. -/
theorem C8_div_ceil_total (total size : Nat) :
    (size = 0 → div_ceil total size = none) ∧
    (1 ≤ size → ∃ q, div_ceil total size = some q ∧
      total ≤ q * size ∧ q * size < total + size) := by
  constructor
  · intro hb; simp [div_ceil, hb]
  · intro hb
    refine ⟨(total + size - 1) / size, div_ceil_eq hb, ?_, ?_⟩
    · exact (div_ceil_char (div_ceil_eq hb)).1
    · exact (div_ceil_char (div_ceil_eq hb)).2

theorem C8_div_ceil_total_witness :
    div_ceil 7 0 = none ∧
    ∃ q, div_ceil 7 3 = some q ∧ 7 ≤ q * 3 ∧ q * 3 < 7 + 3 :=
  ⟨(C8_div_ceil_total 7 0).1 rfl, (C8_div_ceil_total 7 3).2 (by decide)⟩

/-! ## C1 -/

/-- C1 (code bug witness): on a group of size 1, `distribute(Some(items))`
on root does not return the items with no network traffic, as the spec
states; the guard `rank == 0 && size > 1` sends the root of a
single-rank group into the non-root branch, which performs a blocking
receive from rank 0 — itself — for which no matching send exists, so the
call can never return. -/
theorem C1_size_one_self_receive :
    Balancer.distribute 0 1 (some [1, 2, 3]) = DistOutcome.recv := rfl

/-! ## C3 -/

/-- C3: for every `n ≥ 0` and `size ≥ 1`, the Partitioner's ranges
`[k * cs, min ((k+1) * cs, n))` for ranks `0..size` (with
`cs = ceil(n/size)`) are: of length at most `cs`; contiguous (each range
ends where the next one starts, clipped at `n`); contained in `[0, n)`;
covering (every `i < n` lies in the range of some rank `< size`);
pairwise disjoint (no index lies in two distinct ranks' ranges); and
empty for every rank beyond the last non-empty chunk. -/
theorem C3_partitioner_ranges (n size : Nat) (hsize : 1 ≤ size) :
    ∃ cs, div_ceil n size = some cs ∧
      (∀ k, partitionRange n size k = some (k * cs, min ((k + 1) * cs) n)) ∧
      (∀ k, min ((k + 1) * cs) n - k * cs ≤ cs) ∧
      (∀ k l r l2 r2, partitionRange n size k = some (l, r) →
        partitionRange n size (k + 1) = some (l2, r2) → r = min l2 n) ∧
      (∀ k i, k * cs ≤ i → i < min ((k + 1) * cs) n → i < n) ∧
      (∀ i, i < n → ∃ k, k < size ∧ k * cs ≤ i ∧ i < min ((k + 1) * cs) n) ∧
      (∀ i k k2, k * cs ≤ i → i < min ((k + 1) * cs) n →
        k2 * cs ≤ i → i < min ((k2 + 1) * cs) n → k = k2) ∧
      (∀ k, n ≤ k * cs → ¬∃ i, k * cs ≤ i ∧ i < min ((k + 1) * cs) n) := by
  obtain ⟨cs, heq⟩ : ∃ cs, div_ceil n size = some cs := ⟨_, div_ceil_eq hsize⟩
  have hchar := div_ceil_char heq
  refine ⟨cs, heq, ?_, ?_, ?_, ?_, ?_, ?_, ?_⟩
  · intro k
    simp [partitionRange, heq]
  · intro k
    have e1 : (k + 1) * cs = k * cs + cs := by ring
    rcases le_total ((k + 1) * cs) n with h | h
    · rw [min_eq_left h]; omega
    · rw [min_eq_right h]; omega
  · intro k l r l2 r2 h1 h2
    simp [partitionRange, heq] at h1 h2
    omega
  · intro k i _ h2
    rcases le_total ((k + 1) * cs) n with h | h
    · rw [min_eq_left h] at h2; omega
    · rw [min_eq_right h] at h2; omega
  · intro i hi
    have hcs1 : 1 ≤ cs := by
      rcases Nat.eq_zero_or_pos cs with h0 | h0
      · exfalso; rw [h0] at hchar; simp at hchar; omega
      · exact h0
    have h1 := Nat.div_add_mod i cs
    have h2 := Nat.mod_lt i hcs1
    have e1 : (i / cs + 1) * cs = i / cs * cs + cs := by ring
    have e2 : i / cs * cs = cs * (i / cs) := Nat.mul_comm _ _
    refine ⟨i / cs, ?_, Nat.div_mul_le_self i cs, lt_min (by omega) hi⟩
    rw [Nat.div_lt_iff_lt_mul hcs1]
    have e3 : cs * size = size * cs := Nat.mul_comm _ _
    omega
  · intro i k k2 h1 h2 h3 h4
    have hb2 : i < (k + 1) * cs := lt_of_lt_of_le h2 (min_le_left _ _)
    have hb4 : i < (k2 + 1) * cs := lt_of_lt_of_le h4 (min_le_left _ _)
    have hk : i / cs = k := Nat.div_eq_of_lt_le h1 hb2
    have hk2 : i / cs = k2 := Nat.div_eq_of_lt_le h3 hb4
    omega
  · intro k hk ⟨i, h1, h2⟩
    have hm : i < n := lt_of_lt_of_le h2 (min_le_right _ _)
    omega

theorem C3_partitioner_ranges_witness :
    1 ≤ 3 ∧
    ∃ cs, div_ceil 10 3 = some cs ∧
      (∀ k, partitionRange 10 3 k = some (k * cs, min ((k + 1) * cs) 10)) ∧
      (∀ k, min ((k + 1) * cs) 10 - k * cs ≤ cs) ∧
      (∀ k l r l2 r2, partitionRange 10 3 k = some (l, r) →
        partitionRange 10 3 (k + 1) = some (l2, r2) → r = min l2 10) ∧
      (∀ k i, k * cs ≤ i → i < min ((k + 1) * cs) 10 → i < 10) ∧
      (∀ i, i < 10 → ∃ k, k < 3 ∧ k * cs ≤ i ∧ i < min ((k + 1) * cs) 10) ∧
      (∀ i k k2, k * cs ≤ i → i < min ((k + 1) * cs) 10 →
        k2 * cs ≤ i → i < min ((k2 + 1) * cs) 10 → k = k2) ∧
      (∀ k, 10 ≤ k * cs → ¬∃ i, k * cs ≤ i ∧ i < min ((k + 1) * cs) 10) :=
  ⟨by decide, C3_partitioner_ranges 10 3 (by decide)⟩

/-! ## Characterisation of the send loop -/

theorem sendLoopAux_nil {I : Type} (cs fuel start : Nat) :
    sendLoopAux (I := I) cs fuel start [] = some [] := by
  cases fuel <;> rfl

/-- Full characterisation of the send loop for `cs ≥ 1` (the only case
the source reaches with a non-empty list): it terminates within
`l.length` iterations, sends chunks addressed to consecutive ranks
starting at `start`, the chunks concatenate back to `l`, there are
exactly `ceil(l.length / cs)` of them, and the `j`-th chunk is
`l[j*cs .. j*cs + cs]`. -/
theorem sendLoopAux_spec {I : Type} (cs : Nat) (hcs : 1 ≤ cs) :
    ∀ (fuel : Nat) (l : List I) (start : Nat), l.length ≤ fuel →
      ∃ msgs, sendLoopAux cs fuel start l = some msgs ∧
        msgs.map Prod.fst = List.range' start msgs.length ∧
        (msgs.map Prod.snd).flatten = l ∧
        msgs.length = (l.length + cs - 1) / cs ∧
        (∀ j, j < msgs.length →
          msgs[j]? = some (start + j, (l.drop (j * cs)).take cs)) := by
  intro fuel
  induction fuel with
  | zero =>
    intro l start hlen
    have hl : l = [] := List.eq_nil_of_length_eq_zero (by omega)
    subst hl
    refine ⟨[], rfl, rfl, rfl, ?_, ?_⟩
    · have h0 : (0 + cs - 1) / cs = 0 := Nat.div_eq_of_lt (by omega)
      simpa using h0.symm
    · intro j hj; simp at hj
  | succ fuel ih =>
    intro l start hlen
    match l with
    | [] =>
      refine ⟨[], sendLoopAux_nil cs _ start, rfl, rfl, ?_, ?_⟩
      · have h0 : (0 + cs - 1) / cs = 0 := Nat.div_eq_of_lt (by omega)
        simpa using h0.symm
      · intro j hj; simp at hj
    | a :: t =>
      rcases le_total cs (a :: t).length with h | h
      · -- full chunk: drain exactly cs items
        have hmin : min cs (a :: t).length = cs := min_eq_left h
        have hrec : ((a :: t).drop cs).length ≤ fuel := by
          rw [List.length_drop]
          simp only [List.length_cons] at hlen h ⊢
          omega
        obtain ⟨msgs, hsl, hfst, hflat, hlen2, hidx⟩ := ih ((a :: t).drop cs) (start + 1) hrec
        refine ⟨(start, (a :: t).take cs) :: msgs, ?_, ?_, ?_, ?_, ?_⟩
        · simp only [sendLoopAux, if_neg (show ¬cs = 0 by omega)]
          rw [hmin, hsl]
          rfl
        · simp only [List.map_cons, List.length_cons, List.range'_succ]
          rw [hfst]
        · simp only [List.map_cons, List.flatten_cons]
          rw [hflat, List.take_append_drop]
        · rw [List.length_drop] at hlen2
          simp only [List.length_cons] at h ⊢
          rw [List.length_cons] at hlen2
          have e : t.length + 1 + cs - 1 = (t.length + 1 - cs + cs - 1) + cs := by omega
          rw [e, Nat.add_div_right _ (by omega), hlen2]
        · intro j hj
          match j with
          | 0 => simp
          | j + 1 =>
            simp only [List.getElem?_cons_succ]
            have hj2 : j < msgs.length := by
              simp only [List.length_cons] at hj
              omega
            have hx := hidx j hj2
            rw [List.drop_drop] at hx
            have e1 : cs + j * cs = (j + 1) * cs := by ring
            have e2 : start + 1 + j = start + (j + 1) := by omega
            rw [e1, e2] at hx
            exact hx
      · -- last partial chunk: the whole remaining list is drained at once
        have hmin : min cs (a :: t).length = (a :: t).length := min_eq_right h
        refine ⟨[(start, a :: t)], ?_, ?_, ?_, ?_, ?_⟩
        · simp only [sendLoopAux, if_neg (show ¬cs = 0 by omega)]
          rw [hmin, List.drop_length, List.take_length, sendLoopAux_nil]
          rfl
        · simp [List.range'_succ]
        · simp
        · have e : ((a :: t).length + cs - 1) / cs = 1 := by
            apply Nat.div_eq_of_lt_le
            · simp only [List.length_cons]; omega
            · simp only [List.length_cons] at h ⊢; omega
          simp only [List.length_singleton, e]
        · intro j hj
          simp only [List.length_singleton] at hj
          match j with
          | 0 =>
            simp only [Nat.zero_mul, List.drop_zero, List.getElem?_cons_zero,
              Nat.add_zero, Option.some.injEq, Prod.mk.injEq, true_and]
            exact (List.take_of_length_le h).symm

theorem sendLoop_spec {I : Type} {cs : Nat} (hcs : 1 ≤ cs) (l : List I) (start : Nat) :
    ∃ msgs, sendLoop cs start l = some msgs ∧
      msgs.map Prod.fst = List.range' start msgs.length ∧
      (msgs.map Prod.snd).flatten = l ∧
      msgs.length = (l.length + cs - 1) / cs ∧
      (∀ j, j < msgs.length →
        msgs[j]? = some (start + j, (l.drop (j * cs)).take cs)) :=
  sendLoopAux_spec cs hcs l.length l start (le_refl _)

/-! ## The root branch of `distribute` -/

/-- On a group of at least two ranks, root's `distribute(Some(data))`
always completes its send phase: it keeps the first `chunk_size` items and
sends consecutive chunks to ranks `1, 2, ...`; the `j`-th send (counting
from 0) goes to rank `1 + j` and carries `data[(1+j)*cs .. (2+j)*cs]`. -/
theorem distribute_root {I : Type} {size : Nat} (hsize : 2 ≤ size) (data : List I) :
    ∃ cs msgs, div_ceil data.length size = some cs ∧
      Balancer.distribute 0 size (some data) = DistOutcome.sends (data.take cs) msgs ∧
      msgs.map Prod.fst = List.range' 1 msgs.length ∧
      (msgs.map Prod.snd).flatten = data.drop cs ∧
      (data.length = 0 → msgs = []) ∧
      (1 ≤ data.length → msgs.length = (data.length - 1) / cs) ∧
      (∀ j, j < msgs.length →
        msgs[j]? = some (1 + j, (data.drop ((1 + j) * cs)).take cs)) := by
  have hcond : ((0 : Nat) = 0 ∧ 1 < size) := ⟨rfl, by omega⟩
  obtain ⟨cs, heq⟩ : ∃ cs, div_ceil data.length size = some cs :=
    ⟨_, div_ceil_eq (by omega)⟩
  have hle : cs ≤ data.length := div_ceil_le_self hsize heq
  rcases Nat.eq_zero_or_pos data.length with hn | hn
  · -- empty data: chunk size 0, root keeps nothing, loop body never runs
    have hdata : data = [] := List.eq_nil_of_length_eq_zero hn
    subst hdata
    have hcs0 : cs = 0 := by omega
    subst hcs0
    refine ⟨0, [], heq, ?_, rfl, rfl, fun _ => rfl, by simp, by simp⟩
    unfold Balancer.distribute
    rw [if_pos hcond]
    simp only [heq]
    rfl
  · have hcs1 : 1 ≤ cs := div_ceil_pos heq hn
    obtain ⟨msgs, hsl, hfst, hflat, hlen, hidx⟩ := sendLoop_spec hcs1 (data.drop cs) 1
    refine ⟨cs, msgs, heq, ?_, hfst, hflat, by omega, ?_, ?_⟩
    · unfold Balancer.distribute
      rw [if_pos hcond]
      simp only [heq, hsl, if_pos hle]
    · intro _
      rw [List.length_drop] at hlen
      rw [hlen]
      congr 1
      omega
    · intro j hj
      have hx := hidx j hj
      rw [List.drop_drop] at hx
      have e1 : cs + j * cs = (1 + j) * cs := by ring
      rw [e1] at hx
      exact hx

/-! ## Matching follower receives with root's sends -/

theorem take_min_length {α : Type} (l : List α) (m : Nat) :
    l.take (min m l.length) = l.take m := by
  rcases le_total m l.length with h | h
  · rw [min_eq_left h]
  · rw [min_eq_right h, List.take_length, List.take_of_length_le h]

/-- When root's sends are addressed to the consecutive ranks
`s, s+1, ...` in order, the send matched by a given rank's blocking
receive is the positional one. -/
theorem followerRecv_consecutive {I : Type} :
    ∀ (msgs : List (Nat × List I)) (s : Nat),
      msgs.map Prod.fst = List.range' s msgs.length →
      ∀ j, j < msgs.length → followerRecv msgs (s + j) = (msgs[j]?).map Prod.snd := by
  intro msgs
  induction msgs with
  | nil =>
    intro s _ j hj
    simp at hj
  | cons p rest ih =>
    intro s hmap j hj
    simp only [List.map_cons, List.length_cons, List.range'_succ] at hmap
    injection hmap with hp hrest
    rcases j with _ | j
    · unfold followerRecv
      rw [List.find?_cons_of_pos _ (by simp [hp])]
      simp
    · unfold followerRecv
      rw [List.find?_cons_of_neg _ (by simp [hp])]
      have hx := ih (s + 1) hrest j (by simp only [List.length_cons] at hj; omega)
      unfold followerRecv at hx
      rw [show s + (j + 1) = s + 1 + j by omega, List.getElem?_cons_succ]
      exact hx

/-! ## C9 -/

/-- C9: on root with `size > 1` and `n` items, point-to-point sends go
only to ranks with a non-empty chunk: there are no sends at all when
`n = 0`, and otherwise exactly `ceil(n / chunk_size) - 1` of them
(stated as `msgs.length + 1 = ceil(n / chunk_size)`), addressed
consecutively to ranks `1, 2, ...`; every sent chunk is non-empty and its
destination rank `k` satisfies `k * chunk_size < n` (the Partitioner chunk
of `k` is non-empty), and no rank whose chunk is empty
(`n ≤ k * chunk_size`) is ever sent a message — even though every
non-root rank's `distribute(None)` performs exactly one blocking
receive (`DistOutcome.recv`). -/
theorem C9_sends_only_nonempty {I : Type} (size : Nat) (hsize : 2 ≤ size) (data : List I) :
    ∃ cs ours msgs, div_ceil data.length size = some cs ∧
      Balancer.distribute 0 size (some data) = DistOutcome.sends ours msgs ∧
      (data.length = 0 → msgs = []) ∧
      (1 ≤ data.length → msgs.length + 1 = (data.length + cs - 1) / cs) ∧
      msgs.map Prod.fst = List.range' 1 msgs.length ∧
      (∀ p, p ∈ msgs → p.2 ≠ [] ∧ p.1 * cs < data.length) ∧
      (∀ k, data.length ≤ k * cs → ∀ c, (k, c) ∉ msgs) ∧
      (∀ rank, rank ≠ 0 →
        Balancer.distribute rank size (none : Option (List I)) = DistOutcome.recv) := by
  obtain ⟨cs, msgs, heq, hdist, hfst, hflat, hnil, hlen, hidx⟩ := distribute_root hsize data
  have hmem : ∀ p, p ∈ msgs → p.2 ≠ [] ∧ p.1 * cs < data.length := by
    intro p hp
    rcases Nat.eq_zero_or_pos data.length with hn | hn
    · rw [hnil hn] at hp
      simp at hp
    · have hcs1 : 1 ≤ cs := div_ceil_pos heq hn
      obtain ⟨j, hpj⟩ := List.getElem?_of_mem hp
      have hjlen : j < msgs.length := by
        by_contra hge
        rw [List.getElem?_eq_none (by omega)] at hpj
        simp at hpj
      rw [hidx j hjlen] at hpj
      have hpeq : (1 + j, (data.drop ((1 + j) * cs)).take cs) = p := Option.some.inj hpj
      have hmul : (1 + j) * cs < data.length := by
        have hjl : j + 1 ≤ msgs.length := hjlen
        rw [hlen hn] at hjl
        have hdiv := (Nat.le_div_iff_mul_le hcs1).mp hjl
        have e : (1 + j) * cs = (j + 1) * cs := by ring
        omega
      subst hpeq
      refine ⟨?_, by simpa using hmul⟩
      have hlp : 0 < ((data.drop ((1 + j) * cs)).take cs).length := by
        rw [List.length_take, List.length_drop]
        exact lt_min hcs1 (by omega)
      exact List.length_pos.mp hlp
  refine ⟨cs, data.take cs, msgs, heq, hdist, hnil, ?_, hfst, hmem, ?_, ?_⟩
  · intro hn
    rw [hlen hn]
    have hcs1 : 1 ≤ cs := div_ceil_pos heq hn
    have e : data.length + cs - 1 = (data.length - 1) + cs := by omega
    rw [e, Nat.add_div_right _ (by omega)]
  · intro k hk c hmemk
    have hx := hmem (k, c) hmemk
    simp only at hx
    omega
  · intro rank hrank
    unfold Balancer.distribute
    rw [if_neg (fun h => hrank h.1)]

theorem C9_sends_only_nonempty_witness :
    2 ≤ 3 ∧
    (∃ cs ours msgs, div_ceil ([0, 1] : List Nat).length 3 = some cs ∧
      Balancer.distribute 0 3 (some ([0, 1] : List Nat)) = DistOutcome.sends ours msgs ∧
      (([0, 1] : List Nat).length = 0 → msgs = []) ∧
      (1 ≤ ([0, 1] : List Nat).length →
        msgs.length + 1 = (([0, 1] : List Nat).length + cs - 1) / cs) ∧
      msgs.map Prod.fst = List.range' 1 msgs.length ∧
      (∀ p, p ∈ msgs → p.2 ≠ [] ∧ p.1 * cs < ([0, 1] : List Nat).length) ∧
      (∀ k, ([0, 1] : List Nat).length ≤ k * cs → ∀ c, (k, c) ∉ msgs) ∧
      (∀ rank, rank ≠ 0 →
        Balancer.distribute rank 3 (none : Option (List Nat)) = DistOutcome.recv)) :=
  ⟨by decide, C9_sends_only_nonempty 3 (by decide) [0, 1]⟩

/-! ## C6 -/

/-- For any rank whose lower bound is within the data, `get_subset`
returns the `chunk_size`-sized window starting at `rank * chunk_size`. -/
theorem get_subset_eq {I : Type} {size cs : Nat} {data : List I}
    (heq : div_ceil data.length size = some cs) (k : Nat)
    (hk : k * cs ≤ data.length) :
    Balancer.get_subset k size data = some ((data.drop (k * cs)).take cs) := by
  unfold Balancer.get_subset
  simp only [heq]
  unfold sliceRange
  have e1 : (k + 1) * cs = k * cs + cs := by ring
  have hl : k * cs ≤ min ((k + 1) * cs) data.length := le_min (by omega) hk
  rw [if_pos ⟨hl, min_le_right _ _⟩]
  congr 1
  have e2 : min ((k + 1) * cs) data.length - k * cs = min cs (data.length - k * cs) := by
    rcases le_total ((k + 1) * cs) data.length with h | h
    · rw [min_eq_left h, min_eq_left (by omega)]
      omega
    · rw [min_eq_right h, min_eq_right (by omega)]
  rw [e2, ← List.length_drop, take_min_length]

/-- C6: on root with `size ≥ 2`, the chunk kept by `distribute` (drained
first) is exactly what `get_subset` computes for rank 0, every chunk sent
to a rank `k` is exactly what `get_subset` computes for rank `k`, and
every rank `k ≥ 1` whose `get_subset` chunk exists and is non-empty is
sent exactly that chunk. -/
theorem C6_drains_match_partitioner {I : Type} (size : Nat) (hsize : 2 ≤ size)
    (data : List I) :
    ∃ cs ours msgs, div_ceil data.length size = some cs ∧
      Balancer.distribute 0 size (some data) = DistOutcome.sends ours msgs ∧
      Balancer.get_subset 0 size data = some ours ∧
      (∀ p, p ∈ msgs → Balancer.get_subset p.1 size data = some p.2) ∧
      (∀ k sub, 1 ≤ k → Balancer.get_subset k size data = some sub → sub ≠ [] →
        (k, sub) ∈ msgs) := by
  obtain ⟨cs, msgs, heq, hdist, hfst, hflat, hnil, hlen, hidx⟩ := distribute_root hsize data
  refine ⟨cs, data.take cs, msgs, heq, hdist, ?_, ?_, ?_⟩
  · have h0 := get_subset_eq heq 0 (by simp)
    simpa using h0
  · intro p hp
    rcases Nat.eq_zero_or_pos data.length with hn | hn
    · rw [hnil hn] at hp
      simp at hp
    · have hcs1 : 1 ≤ cs := div_ceil_pos heq hn
      obtain ⟨j, hpj⟩ := List.getElem?_of_mem hp
      have hjlen : j < msgs.length := by
        by_contra hge
        rw [List.getElem?_eq_none (by omega)] at hpj
        simp at hpj
      rw [hidx j hjlen] at hpj
      have hpeq : (1 + j, (data.drop ((1 + j) * cs)).take cs) = p := Option.some.inj hpj
      have hmul : (1 + j) * cs < data.length := by
        have hjl : j + 1 ≤ msgs.length := hjlen
        rw [hlen hn] at hjl
        have hdiv := (Nat.le_div_iff_mul_le hcs1).mp hjl
        have e : (1 + j) * cs = (j + 1) * cs := by ring
        omega
      subst hpeq
      exact get_subset_eq heq (1 + j) (by omega)
  · intro k sub hk hget hne
    rcases Nat.eq_zero_or_pos data.length with hn | hn
    · exfalso
      have hdata : data = [] := List.eq_nil_of_length_eq_zero hn
      subst hdata
      have hcs0 : cs = 0 := by
        have hc := div_ceil_char heq
        by_contra h
        have h1 : 1 ≤ cs := by omega
        have h2 : size ≤ cs * size := Nat.le_mul_of_pos_left size (by omega)
        simp at hc
        omega
      have h0 := get_subset_eq heq k (by simp [hcs0])
      rw [hget] at h0
      have := Option.some.inj h0
      simp [hcs0] at this
      exact hne this
    · have hcs1 : 1 ≤ cs := div_ceil_pos heq hn
      have hkn : k * cs ≤ data.length := by
        by_contra hgt
        unfold Balancer.get_subset at hget
        simp only [heq] at hget
        unfold sliceRange at hget
        rw [if_neg (fun hc => by
          have := min_le_right ((k + 1) * cs) data.length
          omega)] at hget
        simp at hget
      have hsub := get_subset_eq heq k hkn
      have hsubeq : sub = (data.drop (k * cs)).take cs :=
        Option.some.inj (hget.symm.trans hsub)
      have hklt : k * cs < data.length := by
        rcases Nat.lt_or_ge (k * cs) data.length with h | h
        · exact h
        · exfalso
          rw [hsubeq, List.drop_eq_nil_of_le h, List.take_nil] at hne
          exact hne rfl
      have hjlen : k - 1 < msgs.length := by
        rw [hlen hn]
        have hd := (Nat.le_div_iff_mul_le hcs1).mpr (show k * cs ≤ data.length - 1 by omega)
        omega
      have hx := hidx (k - 1) hjlen
      rw [show 1 + (k - 1) = k by omega] at hx
      rw [hsubeq]
      exact List.mem_iff_getElem?.mpr ⟨k - 1, hx⟩

theorem C6_drains_match_partitioner_witness :
    2 ≤ 4 ∧
    (∃ cs ours msgs, div_ceil ([0, 1, 2, 3, 4] : List Nat).length 4 = some cs ∧
      Balancer.distribute 0 4 (some ([0, 1, 2, 3, 4] : List Nat)) =
        DistOutcome.sends ours msgs ∧
      Balancer.get_subset 0 4 ([0, 1, 2, 3, 4] : List Nat) = some ours ∧
      (∀ p, p ∈ msgs →
        Balancer.get_subset p.1 4 ([0, 1, 2, 3, 4] : List Nat) = some p.2) ∧
      (∀ k sub, 1 ≤ k →
        Balancer.get_subset k 4 ([0, 1, 2, 3, 4] : List Nat) = some sub → sub ≠ [] →
        (k, sub) ∈ msgs)) :=
  ⟨by decide, C6_drains_match_partitioner 4 (by decide) [0, 1, 2, 3, 4]⟩

/-! ## C2 -/

/-- C2 (counterexample to the claim as stated): with `data = [0, 1]` and
`size = 3`, rank 2's chunk is empty, so root sends only to rank 1; rank
2's blocking receive in `distribute(None)` never completes and no rank
gets past the post-distribute barrier — the protocol deadlocks instead of
reproducing the data, even though `data` is non-empty and `size ≥ 1`. -/
theorem C2_roundtrip_counterexample :
    roundTrip 3 ([0, 1] : List Nat) = none := rfl

/-- C2 (amended): for a group of `size ≥ 2` and data such that every
rank's Partitioner chunk is non-empty (`(size-1) * ceil(n/size) < n`,
which also forces `n ≥ 1`), the full cycle — `distribute(Some(data))` on
root, `distribute(None)` on every follower, identity `work` on each
rank's chunk, then `collect` — reproduces `data` on root in its original
order. -/
theorem C2_roundtrip_amended {I : Type} (size : Nat) (data : List I)
    (hsize : 2 ≤ size)
    (hfull : (size - 1) * ((data.length + size - 1) / size) < data.length) :
    roundTrip size data = some data := by
  obtain ⟨cs, msgs, heq, hdist, hfst, hflat, hnil, hlen, hidx⟩ := distribute_root hsize data
  have hcs_eq : cs = (data.length + size - 1) / size := by
    rw [div_ceil_eq (show 1 ≤ size by omega)] at heq
    exact (Option.some.inj heq).symm
  rw [← hcs_eq] at hfull
  have hn : 1 ≤ data.length := by omega
  have hcs1 : 1 ≤ cs := div_ceil_pos heq hn
  have hchar := div_ceil_char heq
  have hm : msgs.length = size - 1 := by
    rw [hlen hn]
    apply Nat.div_eq_of_lt_le
    · omega
    · have e : (size - 1 + 1) * cs = size * cs := by congr 1; omega
      rw [e]
      have e2 : size * cs = cs * size := Nat.mul_comm _ _
      omega
  have hrecv : ∀ j, j < size - 1 → followerRecv msgs (j + 1) = (msgs[j]?).map Prod.snd := by
    intro j hj
    have hx := followerRecv_consecutive msgs 1 hfst j (by omega)
    rw [show 1 + j = j + 1 by omega] at hx
    exact hx
  have hfch : (List.range (size - 1)).map (fun j => followerRecv msgs (j + 1)) =
      msgs.map (fun p => some p.2) := by
    apply List.ext_getElem?
    intro i
    rw [List.getElem?_map, List.getElem?_map]
    rcases Nat.lt_or_ge i (size - 1) with hi | hi
    · have him : i < msgs.length := by omega
      simp [List.getElem?_range hi, hrecv i hi, List.getElem?_eq_getElem him]
    · have h1 : (List.range (size - 1))[i]? = none :=
        List.getElem?_eq_none (by simpa using hi)
      have h2 : msgs[i]? = none := List.getElem?_eq_none (by omega)
      rw [h1, h2]
      rfl
  have hall : ((msgs.map (fun p => some p.2)).all Option.isSome) = true := by
    simp
    intro x x1 x2 _ hx
    rw [← hx]
    rfl
  have houts : ((msgs.map fun p => some p.2)).map
      (fun c => (Balancer.work (fun x => x) (c.getD [])).getD []) = msgs.map Prod.snd := by
    simp [Balancer.work, parMap, List.map_map, Function.comp]
  unfold roundTrip
  rw [hdist]
  simp only [hfch, hall, houts, if_pos]
  simp only [Balancer.work, Balancer.collect, parMap]
  rw [if_pos trivial]
  simp only [List.map_id']
  rw [hflat, List.take_append_drop]

theorem C2_roundtrip_amended_witness :
    2 ≤ 3 ∧
    (3 - 1) * ((([0, 1, 2, 3, 4, 5, 6, 7, 8, 9] : List Nat).length + 3 - 1) / 3) <
      ([0, 1, 2, 3, 4, 5, 6, 7, 8, 9] : List Nat).length ∧
    roundTrip 3 ([0, 1, 2, 3, 4, 5, 6, 7, 8, 9] : List Nat) =
      some [0, 1, 2, 3, 4, 5, 6, 7, 8, 9] :=
  ⟨by decide, by decide,
    C2_roundtrip_amended 3 [0, 1, 2, 3, 4, 5, 6, 7, 8, 9] (by decide) (by decide)⟩

/-! ## C4 -/

/-- C4: `work(items, f)` stores a LocalWork whose output has the same
length as `items` and holds `f items[i]` at every position `i` (the
parallel map is positional, so this is independent of worker-thread
scheduling by construction of the model); on a single-rank group a
subsequent `collect()` returns `Some` of exactly that sequence. -/
theorem C4_work_positional {I O : Type} (f : I → O) (items : List I) :
    ∃ out, Balancer.work f items = some out ∧
      out.length = items.length ∧
      (∀ i : Nat, out[i]? = (items[i]?).map f) ∧
      (Balancer.collect 0 1 (Balancer.work f items) []).result = some out := by
  refine ⟨items.map f, rfl, by simp, ?_, ?_⟩
  · intro i
    exact List.getElem?_map f items i
  · simp [Balancer.collect, Balancer.work, parMap]

/-! ## C5 -/

/-- C5: `collect` takes and clears the pending LocalWork: with nothing
pending it returns `None` with no receive, no send and no barrier; with
work pending the slot is cleared, root's call returns `Some`, and a
second `collect` right after the first — on any rank — returns `None`
and performs no network activity. -/
theorem C5_collect_take_and_clear {O : Type} (rank size : Nat) (out : List O)
    (inc inc2 : List (List O)) :
    Balancer.collect rank size none inc =
      { result := none, slotAfter := none, receives := 0, sends := 0, barrier := false } ∧
    (Balancer.collect rank size (some out) inc).slotAfter = none ∧
    (rank = 0 → ∃ res, (Balancer.collect rank size (some out) inc).result = some res) ∧
    Balancer.collect rank size
        ((Balancer.collect rank size (some out) inc).slotAfter) inc2 =
      { result := none, slotAfter := none, receives := 0, sends := 0, barrier := false } := by
  refine ⟨rfl, ?_, ?_, ?_⟩
  · by_cases h : rank = 0 <;> simp [Balancer.collect, h]
  · intro h
    subst h
    exact ⟨out ++ inc.flatten, by simp [Balancer.collect]⟩
  · by_cases h : rank = 0 <;> simp [Balancer.collect, h]

theorem C5_collect_take_and_clear_witness :
    Balancer.collect 0 3 (none : Option (List Nat)) [[6], [7]] =
      { result := none, slotAfter := none, receives := 0, sends := 0, barrier := false } ∧
    (Balancer.collect 0 3 (some [(5 : Nat)]) [[6], [7]]).slotAfter = none ∧
    (∃ res, (Balancer.collect 0 3 (some [(5 : Nat)]) [[6], [7]]).result = some res) ∧
    Balancer.collect 0 3
        ((Balancer.collect 0 3 (some [(5 : Nat)]) [[6], [7]]).slotAfter) [] =
      { result := none, slotAfter := none, receives := 0, sends := 0, barrier := false } :=
  ⟨(C5_collect_take_and_clear 0 3 [5] [[6], [7]] []).1,
   (C5_collect_take_and_clear 0 3 [5] [[6], [7]] []).2.1,
   (C5_collect_take_and_clear 0 3 [5] [[6], [7]] []).2.2.1 rfl,
   (C5_collect_take_and_clear 0 3 [5] [[6], [7]] []).2.2.2⟩

/-! ## C10 -/

/-- C10: `work` (and `work_subset`) on an empty input still stores a
pending LocalWork with an empty output (`some []`, not `none`), so a
subsequent `collect()` on a single-rank root returns `Some` of the empty
sequence rather than `None` — "worked on nothing" is distinguishable from
"no pending work". -/
theorem C10_empty_work_is_pending {I O : Type} (rank size : Nat) (hsize : 1 ≤ size)
    (f : I → O) :
    Balancer.work f ([] : List I) = some [] ∧
    Balancer.work_subset rank size f ([] : List I) = some (some []) ∧
    (Balancer.collect 0 1 (Balancer.work f ([] : List I)) []).result =
      some ([] : List O) := by
  refine ⟨rfl, ?_, by simp [Balancer.collect, Balancer.work, parMap]⟩
  unfold Balancer.work_subset
  rw [div_ceil_eq hsize]
  have h0 : (size - 1) / size = 0 := Nat.div_eq_of_lt (by omega)
  simp [h0, sliceRange, parMap]

theorem C10_empty_work_is_pending_witness :
    Balancer.work (fun x : Nat => x + 1) ([] : List Nat) = some [] ∧
    Balancer.work_subset 2 3 (fun x : Nat => x + 1) ([] : List Nat) = some (some []) ∧
    (Balancer.collect 0 1 (Balancer.work (fun x : Nat => x + 1) ([] : List Nat)) []).result =
      some ([] : List Nat) :=
  C10_empty_work_is_pending 2 3 (by decide) (fun x : Nat => x + 1)

/-! ## C7 -/

/-- C7: `work_local` (modelled from the spec, §4.4, as its definition is
absent from `src/lib.rs` while `examples/simple.rs` calls it) has exactly
the same partitioning behaviour as `work_subset` on every input, and when
the Partitioner chunk for this rank exists it stores the mapped chunk as
the pending LocalWork. -/
theorem C7_work_local_eq_work_subset {I O : Type} (rank size : Nat) (f : I → O)
    (items : List I) :
    Balancer.work_local rank size f items = Balancer.work_subset rank size f items ∧
    (∀ sub, Balancer.get_subset rank size items = some sub →
      Balancer.work_local rank size f items = some (some (parMap f sub))) := by
  refine ⟨rfl, ?_⟩
  intro sub hget
  unfold Balancer.get_subset at hget
  unfold Balancer.work_local
  cases hdc : div_ceil items.length size with
  | none =>
    rw [hdc] at hget
    simp at hget
  | some cs =>
    simp only [hdc] at hget ⊢
    simp only [hget]

theorem C7_work_local_eq_work_subset_witness :
    Balancer.work_local 1 2 (fun x : Nat => x * x) [1, 2, 3] =
      Balancer.work_subset 1 2 (fun x : Nat => x * x) [1, 2, 3] ∧
    Balancer.work_local 1 2 (fun x : Nat => x * x) [1, 2, 3] =
      some (some (parMap (fun x : Nat => x * x) [3])) :=
  ⟨(C7_work_local_eq_work_subset 1 2 (fun x : Nat => x * x) [1, 2, 3]).1,
   (C7_work_local_eq_work_subset 1 2 (fun x : Nat => x * x) [1, 2, 3]).2 [3] (by decide)⟩
